import Mathlib

/-!
Verification of the MindGrid knowledge-graph component
(`frontend/src/components/NotesPanel.tsx`, default export `KnowledgeGraph`).

The TypeScript code is shallowly embedded in Lean: JavaScript numbers are
modelled as rationals, a JS `Map`/`Set` that is used only for membership
and first-insertion order is modelled by first-occurrence deduplication
over lists, and React state updates around the definition fetch are
modelled as an explicit transition system.
-/

/-- Lower-casing of a string, modelling JS `toLowerCase` (per character). -/
def lcStr (s : String) : String := s.map Char.toLower

/-- Boolean test that `needle` is an initial segment of `hay`. -/
def isPrefixB : List Char → List Char → Bool
  | [], _ => true
  | _ :: _, [] => false
  | a :: as, b :: bs => a == b && isPrefixB as bs

/-- Boolean test that `needle` occurs contiguously in the second list. -/
def isInfixB (needle : List Char) : List Char → Bool
  | [] => isPrefixB needle []
  | c :: rest => isPrefixB needle (c :: rest) || isInfixB needle rest

/-- Model of JS `hay.includes(needle)` on strings. -/
def containsB (hay needle : String) : Bool := isInfixB needle.data hay.data

/-- Model of the JS emptiness test `!q.trim()`: the string trims to empty
exactly when every character is whitespace. -/
def trimIsEmpty (s : String) : Bool := s.data.all Char.isWhitespace

/-- Sum of the character codes of a string, modelling the reduce over
`charCodeAt` in `linkCanvasObject`. -/
def charSum (s : String) : ℕ := (s.data.map Char.toNat).sum

/-- A record of the raw neighbour-list input format: `name`, incoming
neighbour names (`ins`) and outgoing neighbour names (`outs`). -/
structure RawNode where
  name : String
  ins : List String
  outs : List String
deriving DecidableEq, Repr

/-- All names mentioned by the raw input, in the order the builder's first
pass visits them: each record's own name, then its `ins`, then its `outs`. -/
def rawNames (gd : List RawNode) : List String :=
  gd.flatMap (fun r => r.name :: (r.ins ++ r.outs))

/-- First-occurrence deduplication, modelling insertion into a JS `Map`
keyed by name (`nodeMap` in `enrichedData`): a later occurrence of a seen
name neither re-adds nor reorders it. -/
def dedupFirstAux : List String → List String → List String
  | [], _ => []
  | x :: rest, seen =>
    if seen.contains x then dedupFirstAux rest seen
    else x :: dedupFirstAux rest (x :: seen)

/-- The node ids produced by the builder's first pass. -/
def buildNodeIds (gd : List RawNode) : List String :=
  dedupFirstAux (rawNames gd) []

/-- The (source, target) pairs declared by the raw input, in the order the
builder's second pass visits them: for each record, its `outs` declarations
`(name, out)` and then its `ins` declarations `(in, name)`. -/
def declaredPairs (gd : List RawNode) : List (String × String) :=
  gd.flatMap (fun r =>
    r.outs.map (fun t => (r.name, t)) ++ r.ins.map (fun s => (s, r.name)))

/-- The deduplication key of an edge: the concatenation
`sourceId + "-" + targetId` used for `linkSet` in `enrichedData`. -/
def linkKey (e : String × String) : String := e.1 ++ "-" ++ e.2

/-- Key-based first-occurrence deduplication, modelling the JS `Set`
`linkSet`: an edge is emitted only if its key has not been seen. -/
def dedupByKey : List (String × String) → List String → List (String × String)
  | [], _ => []
  | e :: rest, seen =>
    if seen.contains (linkKey e) then dedupByKey rest seen
    else e :: dedupByKey rest (linkKey e :: seen)

/-- The canonical edge list built from raw neighbour-list input. -/
def buildLinks (gd : List RawNode) : List (String × String) :=
  dedupByKey (declaredPairs gd) []

/-- An enriched graph node as produced by `enrichedData`: id, display
name, connection count, normalised importance and rendered size (`val`). -/
structure ENode where
  id : String
  name : String
  connections : ℕ
  importance : ℚ
  val : ℚ
deriving DecidableEq, Repr

/-- Number of times `x` occurs as a source plus as a target, modelling the
`connectionCount` map built by iterating over `links`. -/
def connCount (links : List (String × String)) (x : String) : ℕ :=
  (links.filter (fun l => l.1 == x)).length +
    (links.filter (fun l => l.2 == x)).length

/-- All endpoint ids of the edge list (the keys of `connectionCount`). -/
def endpointIds (links : List (String × String)) : List String :=
  links.flatMap (fun l => [l.1, l.2])

/-- Model of `Math.max(...connectionCount.values(), 1)`: the maximum of
all per-endpoint counts, floored at 1. -/
def maxConn (links : List (String × String)) : ℕ :=
  (endpointIds links).foldl (fun m x => max m (connCount links x)) 1

/-- Enrichment of one node: `connections` is the counted value with the
JS `|| 1` fallback (an id absent from the count map defaults to 1),
`importance = connections / maxConnections`, and
`val = 25 + importance * (70 - 25)`. -/
def enrichNode (links : List (String × String)) (id name : String) : ENode :=
  let c0 := connCount links id
  let c := if c0 = 0 then 1 else c0
  let imp : ℚ := (c : ℚ) / (maxConn links : ℚ)
  { id := id, name := name, connections := c, importance := imp,
    val := 25 + imp * 45 }

/-- A canonical graph: enriched nodes plus directed edges given by
(source id, target id) pairs. -/
structure Graph where
  nodes : List ENode
  links : List (String × String)
deriving DecidableEq, Repr

/-- The full builder pipeline of `enrichedData` on raw neighbour-list
input: build the node ids and deduplicated edges, then enrich every node
(ids double as display names in this format). -/
def enrichedData (gd : List RawNode) : Graph :=
  let links := buildLinks gd
  { nodes := (buildNodeIds gd).map (fun x => enrichNode links x x),
    links := links }

/-- The nodes whose lower-cased display name contains the lower-cased
query (the seed set of `filteredData`). -/
def matchedNodes (g : Graph) (q : String) : List ENode :=
  g.nodes.filter (fun n => containsB (lcStr n.name) (lcStr q))

/-- The ids of the seed nodes (`matchedIds` in `filteredData`). -/
def matchedIds (g : Graph) (q : String) : List String :=
  (matchedNodes g q).map (fun n => n.id)

/-- Membership in `expandedIds`: either a seed id, or the opposite
endpoint of an edge one of whose endpoints is a seed id. -/
def inExpandedB (g : Graph) (q : String) (x : String) : Bool :=
  (matchedIds g q).contains x ||
    g.links.any (fun l =>
      ((matchedIds g q).contains l.1 && x == l.2) ||
        ((matchedIds g q).contains l.2 && x == l.1))

/-- The search filter `filteredData`: a blank query returns the graph
unchanged; otherwise keep the nodes whose id is in the expanded set and
the edges both of whose endpoints are in the expanded set. -/
def filteredData (g : Graph) (q : String) : Graph :=
  if trimIsEmpty q then g
  else
    { nodes := g.nodes.filter (fun n => inExpandedB g q n.id),
      links := g.links.filter (fun l => inExpandedB g q l.1 && inExpandedB g q l.2) }

/-- The component state relevant to the definition fetch: the currently
selected node id (`selectedNode`), the definition string currently shown
in the panel (`conceptDefinition`), the loading flag (`loadingDef`), and
the concepts with a fetch still in flight. -/
structure PanelState where
  selected : Option String
  shownDef : String
  loadingDef : Bool
  pending : List String
deriving DecidableEq, Repr

/-- Events of the fetch interleaving: a node click, or the arrival of a
successful response carrying the concept it was requested for and the
definition text. -/
inductive FetchEvent where
  | click : String → FetchEvent
  | resolve : String → String → FetchEvent
deriving DecidableEq, Repr

/-- One step of the component under an event. A click runs
`handleNodeClick`: it selects the node and starts a fetch
(`setLoadingDef(true)`, request in flight). A resolution for an in-flight
request runs the response handler of `fetchConceptDefinition`: it stores
the definition and clears the loading flag unconditionally - the code
never compares the response's concept with the current selection. -/
def panelStep (s : PanelState) : FetchEvent → PanelState
  | .click id =>
    { selected := some id, shownDef := s.shownDef, loadingDef := true,
      pending := s.pending ++ [id] }
  | .resolve c d =>
    if s.pending.contains c then
      { selected := s.selected, shownDef := d, loadingDef := false,
        pending := s.pending.erase c }
    else s

/-- The component state reached from the initial state after a list of
events. -/
def panelRun (events : List FetchEvent) : PanelState :=
  events.foldl panelStep { selected := none, shownDef := "", loadingDef := false, pending := [] }

/-- A node as seen by the render pipeline: the enriched fields plus the
simulation coordinates; `none` models a coordinate that is not a finite
number (the `Number.isFinite` guard). -/
structure VNode where
  id : String
  name : String
  val : ℚ
  x : Option ℚ
  y : Option ℚ
deriving DecidableEq, Repr

/-- Drawing of one node per frame (`nodeCanvasObject`): skipped (`none`)
when either coordinate is not finite, otherwise drawn at its position
with its size. -/
def renderNode (n : VNode) : Option (String × ℚ × ℚ × ℚ) :=
  match n.x, n.y with
  | some x, some y => some (n.id, x, y, n.val)
  | _, _ => none

/-- Endpoint lookup used by `linkCanvasObject` when the link endpoint is
still an id: find the node with that id in the visible node list. -/
def findNode (nodes : List VNode) (i : String) : Option VNode :=
  nodes.find? (fun n => n.id == i)

/-- Drawing of one edge per frame (`linkCanvasObject`): skipped when an
endpoint is missing from the node list or any endpoint coordinate is not
finite, otherwise drawn between the two endpoint positions. -/
def renderLink (nodes : List VNode) (l : String × String) :
    Option (String × String × ℚ × ℚ × ℚ × ℚ) :=
  match findNode nodes l.1, findNode nodes l.2 with
  | some s, some t =>
    match s.x, s.y, t.x, t.y with
    | some sx, some sy, some tx, some ty => some (s.id, t.id, sx, sy, tx, ty)
    | _, _, _, _ => none
  | _, _ => none

/-- One animation frame: the drawings produced from the current model;
the model itself is an input and is never modified by rendering. -/
def renderFrame (nodes : List VNode) (links : List (String × String)) :
    List (String × ℚ × ℚ × ℚ) × List (String × String × ℚ × ℚ × ℚ × ℚ) :=
  (nodes.filterMap renderNode, links.filterMap (renderLink nodes))

/-- The per-edge particle phase offset: the character-code sum of
`sourceId + "-" + targetId`, taken modulo 100 and divided by 100. -/
def particleOffset (srcId tgtId : String) : ℚ :=
  ((charSum (srcId ++ "-" ++ tgtId)) % 100 : ℕ) / 100

/-- The curve parameter of particle `p` of an edge at a given animation
tick: `(tick * 0.02 + offset + p * 0.5) mod 1`, modelled with exact
rationals and the fractional part. -/
def particleT (srcId tgtId : String) (tick p : ℕ) : ℚ :=
  Int.fract ((tick : ℚ) * (1 / 50) + particleOffset srcId tgtId + (p : ℚ) * (1 / 2))

/-- Specification-side predicate (from the spec text, for comparison with
the code): node `n` is a seed for query `q` when its display name contains
the query case-insensitively. -/
def SeedNode (q : String) (n : ENode) : Prop :=
  containsB (lcStr n.name) (lcStr q) = true

/-- Specification-side predicate: `x` is the id of a seed node of `g`. -/
def SeedId (g : Graph) (q : String) (x : String) : Prop :=
  ∃ n ∈ g.nodes, n.id = x ∧ SeedNode q n

/-- Specification-side predicate: `x` lies in the one-hop expansion of the
seed set - it is a seed id, or the opposite endpoint of an edge one of
whose endpoints is a seed id. -/
def ExpandedId (g : Graph) (q : String) (x : String) : Prop :=
  SeedId g q x ∨
    ∃ l ∈ g.links, (SeedId g q l.1 ∧ x = l.2) ∨ (SeedId g q l.2 ∧ x = l.1)

theorem contains_iff_mem {l : List String} {x : String} : l.contains x = true ↔ x ∈ l :=
  List.elem_iff

theorem mem_dedupFirstAux {l seen : List String} {x : String} :
    x ∈ dedupFirstAux l seen ↔ x ∈ l ∧ x ∉ seen := by
  induction l generalizing seen with
  | nil => simp [dedupFirstAux]
  | cons a rest ih =>
    cases hc : seen.contains a with
    | true =>
      have ha : a ∈ seen := contains_iff_mem.mp hc
      simp only [dedupFirstAux, hc, if_true, ih, List.mem_cons]
      constructor
      · rintro ⟨hx, hs⟩
        exact ⟨Or.inr hx, hs⟩
      · rintro ⟨hx | hx, hs⟩
        · exact absurd (hx ▸ ha) hs
        · exact ⟨hx, hs⟩
    | false =>
      have ha : a ∉ seen := fun hm => Bool.noConfusion ((contains_iff_mem.mpr hm).symm.trans hc)
      simp only [dedupFirstAux, hc, Bool.false_eq_true, if_false, List.mem_cons, ih]
      constructor
      · rintro (rfl | ⟨hx, hs⟩)
        · exact ⟨Or.inl rfl, ha⟩
        · exact ⟨Or.inr hx, fun hm => hs (Or.inr hm)⟩
      · rintro ⟨rfl | hx, hs⟩
        · exact Or.inl rfl
        · by_cases hxa : x = a
          · exact Or.inl hxa
          · exact Or.inr ⟨hx, by simp [hxa, hs]⟩

theorem mem_of_mem_dedupByKey {l : List (String × String)} {seen : List String}
    {e : String × String} (h : e ∈ dedupByKey l seen) : e ∈ l := by
  induction l generalizing seen with
  | nil => simp [dedupByKey] at h
  | cons a rest ih =>
    cases hc : seen.contains (linkKey a) with
    | true =>
      rw [dedupByKey, hc, if_pos rfl] at h
      exact List.mem_cons_of_mem _ (ih h)
    | false =>
      rw [dedupByKey, hc] at h
      simp only [Bool.false_eq_true, if_false, List.mem_cons] at h
      rcases h with rfl | h
      · exact List.mem_cons_self _ _
      · exact List.mem_cons_of_mem _ (ih h)

theorem dedupByKey_key_not_seen {l : List (String × String)} {seen : List String}
    {e : String × String} (h : e ∈ dedupByKey l seen) : linkKey e ∉ seen := by
  induction l generalizing seen with
  | nil => simp [dedupByKey] at h
  | cons a rest ih =>
    cases hc : seen.contains (linkKey a) with
    | true =>
      rw [dedupByKey, hc, if_pos rfl] at h
      exact ih h
    | false =>
      rw [dedupByKey, hc] at h
      simp only [Bool.false_eq_true, if_false, List.mem_cons] at h
      rcases h with rfl | h
      · exact fun hm => Bool.noConfusion ((contains_iff_mem.mpr hm).symm.trans hc)
      · intro hm
        exact ih h (List.mem_cons_of_mem _ hm)

theorem dedupByKey_keys_pairwise (l : List (String × String)) (seen : List String) :
    (dedupByKey l seen).Pairwise (fun e e' => linkKey e ≠ linkKey e') := by
  induction l generalizing seen with
  | nil => simp [dedupByKey]
  | cons a rest ih =>
    cases hc : seen.contains (linkKey a) with
    | true =>
      rw [dedupByKey, hc, if_pos rfl]
      exact ih seen
    | false =>
      rw [dedupByKey, hc]
      simp only [Bool.false_eq_true, if_false]
      refine List.Pairwise.cons ?_ (ih (linkKey a :: seen))
      intro e he hk
      exact dedupByKey_key_not_seen he (hk ▸ List.mem_cons_self _ _)

theorem mem_dedupByKey_of_inj {l : List (String × String)} {seen : List String}
    {e : String × String}
    (hinj : ∀ e₁ ∈ l, ∀ e₂ ∈ l, linkKey e₁ = linkKey e₂ → e₁ = e₂)
    (he : e ∈ l) (hs : linkKey e ∉ seen) : e ∈ dedupByKey l seen := by
  induction l generalizing seen with
  | nil => simp at he
  | cons a rest ih =>
    have hinj' : ∀ e₁ ∈ rest, ∀ e₂ ∈ rest, linkKey e₁ = linkKey e₂ → e₁ = e₂ :=
      fun e₁ h₁ e₂ h₂ => hinj e₁ (List.mem_cons_of_mem _ h₁) e₂ (List.mem_cons_of_mem _ h₂)
    cases hc : seen.contains (linkKey a) with
    | true =>
      have ha : linkKey a ∈ seen := contains_iff_mem.mp hc
      rw [dedupByKey, hc, if_pos rfl]
      rcases List.mem_cons.mp he with rfl | he'
      · exact absurd ha hs
      · exact ih hinj' he' hs
    | false =>
      rw [dedupByKey, hc]
      simp only [Bool.false_eq_true, if_false, List.mem_cons]
      by_cases hea : e = a
      · exact Or.inl hea
      · have he' : e ∈ rest := by
          rcases List.mem_cons.mp he with h | h
          · exact absurd h hea
          · exact h
        refine Or.inr (ih hinj' he' ?_)
        intro hm
        rcases List.mem_cons.mp hm with hk | hk
        · exact hea (hinj e (List.mem_cons_of_mem _ he') a (List.mem_cons_self _ _) hk)
        · exact hs hk

theorem le_foldl_max (f : String → ℕ) (l : List String) (i : ℕ) :
    i ≤ l.foldl (fun m x => max m (f x)) i := by
  induction l generalizing i with
  | nil => exact le_rfl
  | cons a rest ih => exact le_trans (le_max_left i (f a)) (ih (max i (f a)))

theorem mem_le_foldl_max (f : String → ℕ) {l : List String} {x : String}
    (hx : x ∈ l) (i : ℕ) : f x ≤ l.foldl (fun m y => max m (f y)) i := by
  induction l generalizing i with
  | nil => simp at hx
  | cons a rest ih =>
    rcases List.mem_cons.mp hx with rfl | hx'
    · exact le_trans (le_max_right i (f x)) (le_foldl_max f rest (max i (f x)))
    · exact ih hx' (max i (f a))

theorem one_le_maxConn (links : List (String × String)) : 1 ≤ maxConn links :=
  le_foldl_max _ _ 1

theorem mem_endpointIds_of_connCount_pos {links : List (String × String)} {x : String}
    (h : connCount links x ≠ 0) : x ∈ endpointIds links := by
  have hne : links.filter (fun l => l.1 == x) ≠ [] ∨ links.filter (fun l => l.2 == x) ≠ [] := by
    by_contra hcon
    push_neg at hcon
    rw [connCount, hcon.1, hcon.2] at h
    simp at h
  rcases hne with hne | hne
  · obtain ⟨l, hl⟩ := List.exists_mem_of_ne_nil _ hne
    have := List.mem_filter.mp hl
    have hx : l.1 = x := by simpa using this.2
    exact List.mem_flatMap.mpr ⟨l, this.1, by simp [hx]⟩
  · obtain ⟨l, hl⟩ := List.exists_mem_of_ne_nil _ hne
    have := List.mem_filter.mp hl
    have hx : l.2 = x := by simpa using this.2
    exact List.mem_flatMap.mpr ⟨l, this.1, by simp [hx]⟩

theorem connCount_le_maxConn {links : List (String × String)} {x : String}
    (h : connCount links x ≠ 0) : connCount links x ≤ maxConn links :=
  mem_le_foldl_max _ (mem_endpointIds_of_connCount_pos h) 1

theorem enrichNode_connections (links : List (String × String)) (id name : String) :
    (enrichNode links id name).connections =
      (if connCount links id = 0 then 1 else connCount links id) := rfl

theorem one_le_enrichNode_connections (links : List (String × String)) (id name : String) :
    1 ≤ (enrichNode links id name).connections := by
  rw [enrichNode_connections]
  split
  · exact le_rfl
  · omega

theorem enrichNode_importance (links : List (String × String)) (id name : String) :
    (enrichNode links id name).importance =
      ((if connCount links id = 0 then 1 else connCount links id : ℕ) : ℚ) /
        (maxConn links : ℚ) := rfl

theorem enrichNode_importance_bounds (links : List (String × String)) (id name : String) :
    0 ≤ (enrichNode links id name).importance ∧ (enrichNode links id name).importance ≤ 1 := by
  rw [enrichNode_importance]
  have hM : (0 : ℚ) < (maxConn links : ℚ) := by
    exact_mod_cast Nat.lt_of_lt_of_le Nat.zero_lt_one (one_le_maxConn links)
  constructor
  · positivity
  · rw [div_le_one hM]
    have hc : (if connCount links id = 0 then 1 else connCount links id) ≤ maxConn links := by
      split
      · exact one_le_maxConn links
      · exact connCount_le_maxConn (by omega)
    exact_mod_cast hc

theorem mem_enrichedData_nodes {gd : List RawNode} {n : ENode} :
    n ∈ (enrichedData gd).nodes ↔
      ∃ x ∈ buildNodeIds gd, n = enrichNode (buildLinks gd) x x := by
  simp only [enrichedData, List.mem_map]
  constructor
  · rintro ⟨x, hx, rfl⟩
    exact ⟨x, hx, rfl⟩
  · rintro ⟨x, hx, rfl⟩
    exact ⟨x, hx, rfl⟩

/-- C2 (amended): in every built graph each node's importance lies in
[0,1], and a node whose connection count reaches the (floored at 1)
maximum has importance exactly 1; however, on a graph with no edges every
node has importance exactly 1, not 0, because a node absent from the
connection-count map falls back to one connection while the maximum is
floored at 1. -/
theorem c2_importance_bounds (gd : List RawNode) (n : ENode)
    (hn : n ∈ (enrichedData gd).nodes) :
    0 ≤ n.importance ∧ n.importance ≤ 1 ∧
      (n.connections = maxConn (buildLinks gd) → n.importance = 1) ∧
      (buildLinks gd = [] → n.importance = 1) := by
  obtain ⟨x, hx, rfl⟩ := mem_enrichedData_nodes.mp hn
  obtain ⟨h0, h1⟩ := enrichNode_importance_bounds (buildLinks gd) x x
  refine ⟨h0, h1, ?_, ?_⟩
  · intro hconn
    rw [enrichNode_connections] at hconn
    rw [enrichNode_importance, hconn]
    have hpos : 0 < maxConn (buildLinks gd) :=
      Nat.lt_of_lt_of_le Nat.zero_lt_one (one_le_maxConn (buildLinks gd))
    have hM : (maxConn (buildLinks gd) : ℚ) ≠ 0 := by
      exact_mod_cast hpos.ne'
    exact div_self hM
  · intro hL
    have hc : connCount (buildLinks gd) x = 0 := by
      rw [hL]
      rfl
    have hm : maxConn (buildLinks gd) = 1 := by
      rw [hL]
      rfl
    rw [enrichNode_importance, hc, hm]
    norm_num

/-- C2 counterexample: the claim says an edgeless graph gives every node
importance exactly 0, but building from the single edgeless record `A`
yields no links and importance exactly 1 for `A`. -/
theorem c2_counterexample :
    buildLinks [⟨"A", [], []⟩] = [] ∧
      (enrichedData [⟨"A", [], []⟩]).nodes.map (fun n => n.importance) = [1] ∧
      (1 : ℚ) ≠ 0 := by
  refine ⟨rfl, ?_, by norm_num⟩
  simp +decide [enrichedData, enrichNode, buildNodeIds, buildLinks, dedupFirstAux, dedupByKey,
    declaredPairs, rawNames, linkKey, connCount, maxConn, endpointIds]

theorem c2_importance_bounds_witness :
    0 ≤ (ENode.mk "A" "A" 1 1 70).importance ∧
      (ENode.mk "A" "A" 1 1 70).importance ≤ 1 ∧
      ((ENode.mk "A" "A" 1 1 70).connections =
          maxConn (buildLinks [⟨"A", [], ["B"]⟩, ⟨"B", ["A"], []⟩]) →
        (ENode.mk "A" "A" 1 1 70).importance = 1) ∧
      (buildLinks [⟨"A", [], ["B"]⟩, ⟨"B", ["A"], []⟩] = [] →
        (ENode.mk "A" "A" 1 1 70).importance = 1) := by
  have hg : enrichedData [⟨"A", [], ["B"]⟩, ⟨"B", ["A"], []⟩] =
      ⟨[⟨"A", "A", 1, 1, 70⟩, ⟨"B", "B", 1, 1, 70⟩], [("A", "B")]⟩ := by
    simp +decide [enrichedData, enrichNode, buildNodeIds, buildLinks, dedupFirstAux, dedupByKey,
      declaredPairs, rawNames, linkKey, connCount, maxConn, endpointIds]
    norm_num
  exact c2_importance_bounds [⟨"A", [], ["B"]⟩, ⟨"B", ["A"], []⟩] (ENode.mk "A" "A" 1 1 70)
    (by rw [hg]; exact List.mem_cons_self _ _)

theorem mem_buildLinks_iff_of_inj {gd : List RawNode}
    (hinj : ∀ e₁ ∈ declaredPairs gd, ∀ e₂ ∈ declaredPairs gd,
      linkKey e₁ = linkKey e₂ → e₁ = e₂) {e : String × String} :
    e ∈ buildLinks gd ↔ e ∈ declaredPairs gd := by
  constructor
  · exact mem_of_mem_dedupByKey
  · intro he
    exact mem_dedupByKey_of_inj hinj he (List.not_mem_nil _)

/-- C3 (amended): for every raw input, unconditionally, the canonical
edge list contains no duplicate (source, target) pair; and - only under
the proviso that no two distinct declared pairs collide on the
concatenated deduplication key - two inputs declaring the same set of
pairs, in particular one declaring A→B through an outgoing list where
the other declares it through the target's incoming list, build the same
canonical edge set. Without that proviso the two declaration styles can
produce different edge sets (see the key-collision counterexample). -/
theorem c3_dedup_and_merge (gd gd' : List RawNode) :
    (buildLinks gd).Pairwise (fun e e' => e ≠ e') ∧
      ((∀ e₁ ∈ declaredPairs gd, ∀ e₂ ∈ declaredPairs gd,
          linkKey e₁ = linkKey e₂ → e₁ = e₂) →
        (∀ e₁ ∈ declaredPairs gd', ∀ e₂ ∈ declaredPairs gd',
          linkKey e₁ = linkKey e₂ → e₁ = e₂) →
        (∀ e ∈ declaredPairs gd, e ∈ declaredPairs gd') →
        (∀ e ∈ declaredPairs gd', e ∈ declaredPairs gd) →
        ∀ e, e ∈ buildLinks gd ↔ e ∈ buildLinks gd') := by
  constructor
  · exact (dedupByKey_keys_pairwise _ _).imp (fun h heq => h (congrArg linkKey heq))
  · intro hinj hinj' hsub hsub' e
    rw [mem_buildLinks_iff_of_inj hinj, mem_buildLinks_iff_of_inj hinj']
    exact ⟨fun h => hsub e h, fun h => hsub' e h⟩

/-- C3 counterexample: with hyphen-containing node names, the same two
declared pairs - the pair (A, B-C) once declared as A's outgoing
neighbour and once as B-C's incoming neighbour - build different
canonical edge sets, so an outgoing declaration is not indistinguishable
from the corresponding incoming declaration. -/
theorem c3_counterexample :
    declaredPairs [⟨"A", [], ["B-C"]⟩, ⟨"A-B", [], ["C"]⟩, ⟨"B-C", [], []⟩] =
        [("A", "B-C"), ("A-B", "C")] ∧
      declaredPairs [⟨"A", [], []⟩, ⟨"A-B", [], ["C"]⟩, ⟨"B-C", ["A"], []⟩] =
        [("A-B", "C"), ("A", "B-C")] ∧
      buildLinks [⟨"A", [], ["B-C"]⟩, ⟨"A-B", [], ["C"]⟩, ⟨"B-C", [], []⟩] = [("A", "B-C")] ∧
      buildLinks [⟨"A", [], []⟩, ⟨"A-B", [], ["C"]⟩, ⟨"B-C", ["A"], []⟩] = [("A-B", "C")] ∧
      buildLinks [⟨"A", [], ["B-C"]⟩, ⟨"A-B", [], ["C"]⟩, ⟨"B-C", [], []⟩] ≠
        buildLinks [⟨"A", [], []⟩, ⟨"A-B", [], ["C"]⟩, ⟨"B-C", ["A"], []⟩] := by
  decide

theorem c3_dedup_and_merge_witness :
    (buildLinks [⟨"A", [], ["B"]⟩, ⟨"B", [], []⟩]).Pairwise (fun e e' => e ≠ e') ∧
      ∀ e, e ∈ buildLinks [⟨"A", [], ["B"]⟩, ⟨"B", [], []⟩] ↔
        e ∈ buildLinks [⟨"A", [], []⟩, ⟨"B", ["A"], []⟩] :=
  ⟨(c3_dedup_and_merge [⟨"A", [], ["B"]⟩, ⟨"B", [], []⟩] [⟨"A", [], []⟩, ⟨"B", ["A"], []⟩]).1,
    (c3_dedup_and_merge [⟨"A", [], ["B"]⟩, ⟨"B", [], []⟩] [⟨"A", [], []⟩, ⟨"B", ["A"], []⟩]).2
      (by decide) (by decide) (by decide) (by decide)⟩

/-- C9: the deduplication key is the plain concatenation
`sourceId + "-" + targetId`, so the two distinct declared pairs
(A-B, C) and (A, B-C) collide on the key "A-B-C"; only the first is
emitted and the second declared edge is silently dropped from the
canonical edge set. -/
theorem c9_key_collision_drop :
    linkKey ("A-B", "C") = linkKey ("A", "B-C") ∧
      (("A-B", "C") : String × String) ≠ ("A", "B-C") ∧
      ("A", "B-C") ∈ declaredPairs [⟨"A-B", [], ["C"]⟩, ⟨"A", [], ["B-C"]⟩] ∧
      buildLinks [⟨"A-B", [], ["C"]⟩, ⟨"A", [], ["B-C"]⟩] = [("A-B", "C")] ∧
      ("A", "B-C") ∉ buildLinks [⟨"A-B", [], ["C"]⟩, ⟨"A", [], ["B-C"]⟩] := by
  decide

theorem mem_buildNodeIds {gd : List RawNode} {x : String} :
    x ∈ buildNodeIds gd ↔ x ∈ rawNames gd := by
  rw [buildNodeIds, mem_dedupFirstAux]
  simp

theorem mem_rawNames_of_mem {gd : List RawNode} {r : RawNode} (hr : r ∈ gd) {y : String}
    (hy : y = r.name ∨ y ∈ r.ins ∨ y ∈ r.outs) : y ∈ rawNames gd := by
  refine List.mem_flatMap.mpr ⟨r, hr, ?_⟩
  rcases hy with rfl | hy | hy
  · exact List.mem_cons_self _ _
  · exact List.mem_cons_of_mem _ (List.mem_append_left _ hy)
  · exact List.mem_cons_of_mem _ (List.mem_append_right _ hy)

theorem declaredPairs_endpoints {gd : List RawNode} {e : String × String}
    (he : e ∈ declaredPairs gd) : e.1 ∈ rawNames gd ∧ e.2 ∈ rawNames gd := by
  obtain ⟨r, hr, hmem⟩ := List.mem_flatMap.mp he
  rcases List.mem_append.mp hmem with hout | hin
  · obtain ⟨t, ht, rfl⟩ := List.mem_map.mp hout
    exact ⟨mem_rawNames_of_mem hr (Or.inl rfl),
      mem_rawNames_of_mem hr (Or.inr (Or.inr ht))⟩
  · obtain ⟨s, hs, rfl⟩ := List.mem_map.mp hin
    exact ⟨mem_rawNames_of_mem hr (Or.inr (Or.inl hs)),
      mem_rawNames_of_mem hr (Or.inl rfl)⟩

/-- C4: every edge endpoint id of the built graph appears in the built
node set (no dangling edges), and a name referenced in any record's
incoming or outgoing neighbour list - even with no record of its own -
materialises as a node of the enriched graph whose connection count is
at least 1. -/
theorem c4_no_dangling_edges (gd : List RawNode) :
    (∀ e ∈ buildLinks gd, e.1 ∈ buildNodeIds gd ∧ e.2 ∈ buildNodeIds gd) ∧
      (∀ r ∈ gd, ∀ x : String, (x ∈ r.ins ∨ x ∈ r.outs) →
        x ∈ buildNodeIds gd ∧
          ∃ n ∈ (enrichedData gd).nodes, n.id = x ∧ 1 ≤ n.connections) := by
  constructor
  · intro e he
    have hd := declaredPairs_endpoints (mem_of_mem_dedupByKey he)
    exact ⟨mem_buildNodeIds.mpr hd.1, mem_buildNodeIds.mpr hd.2⟩
  · intro r hr x hx
    have hraw : x ∈ rawNames gd := by
      rcases hx with hx | hx
      · exact mem_rawNames_of_mem hr (Or.inr (Or.inl hx))
      · exact mem_rawNames_of_mem hr (Or.inr (Or.inr hx))
    have hb : x ∈ buildNodeIds gd := mem_buildNodeIds.mpr hraw
    refine ⟨hb, enrichNode (buildLinks gd) x x, mem_enrichedData_nodes.mpr ⟨x, hb, rfl⟩,
      rfl, one_le_enrichNode_connections _ _ _⟩

theorem c4_no_dangling_edges_witness :
    (("A", "B").1 ∈ buildNodeIds [⟨"A", [], ["B"]⟩] ∧
        ("A", "B").2 ∈ buildNodeIds [⟨"A", [], ["B"]⟩]) ∧
      ("B" ∈ buildNodeIds [⟨"A", [], ["B"]⟩] ∧
        ∃ n ∈ (enrichedData [⟨"A", [], ["B"]⟩]).nodes, n.id = "B" ∧ 1 ≤ n.connections) :=
  ⟨(c4_no_dangling_edges [⟨"A", [], ["B"]⟩]).1 ("A", "B") (by decide),
    (c4_no_dangling_edges [⟨"A", [], ["B"]⟩]).2 ⟨"A", [], ["B"]⟩ (by simp) "B"
      (Or.inr (by simp))⟩

theorem mem_matchedIds {g : Graph} {q : String} {x : String} :
    x ∈ matchedIds g q ↔ SeedId g q x := by
  simp only [matchedIds, matchedNodes, List.mem_map, List.mem_filter, SeedId, SeedNode]
  constructor
  · rintro ⟨n, ⟨hn, hc⟩, rfl⟩
    exact ⟨n, hn, rfl, hc⟩
  · rintro ⟨n, hn, rfl, hc⟩
    exact ⟨n, ⟨hn, hc⟩, rfl⟩

theorem inExpandedB_iff {g : Graph} {q : String} {x : String} :
    inExpandedB g q x = true ↔ ExpandedId g q x := by
  simp only [inExpandedB, Bool.or_eq_true, List.any_eq_true, Bool.and_eq_true, beq_iff_eq,
    contains_iff_mem, mem_matchedIds, ExpandedId]

theorem filteredData_nodes_mem {g : Graph} {q : String} (h : trimIsEmpty q = false)
    {n : ENode} :
    n ∈ (filteredData g q).nodes ↔ n ∈ g.nodes ∧ ExpandedId g q n.id := by
  simp [filteredData, h, List.mem_filter, inExpandedB_iff]

theorem filteredData_links_mem {g : Graph} {q : String} (h : trimIsEmpty q = false)
    {l : String × String} :
    l ∈ (filteredData g q).links ↔
      l ∈ g.links ∧ ExpandedId g q l.1 ∧ ExpandedId g q l.2 := by
  simp [filteredData, h, List.mem_filter, Bool.and_eq_true, inExpandedB_iff, and_assoc]

/-- C5: the search filter returns the graph unchanged on a blank
(empty or all-whitespace) query; on a non-blank query its node set is
exactly the nodes of the graph that are seeds (display name contains the
query case-insensitively) or lie one hop from a seed along an edge in
either direction, and its edge set is exactly the edges of the graph
with both endpoints in that expanded set. -/
theorem c5_filter_characterization (g : Graph) (q : String) :
    (trimIsEmpty q = true → filteredData g q = g) ∧
      (trimIsEmpty q = false →
        (∀ n, n ∈ (filteredData g q).nodes ↔ n ∈ g.nodes ∧ ExpandedId g q n.id) ∧
          (∀ l, l ∈ (filteredData g q).links ↔
            l ∈ g.links ∧ ExpandedId g q l.1 ∧ ExpandedId g q l.2)) := by
  constructor
  · intro h
    simp [filteredData, h]
  · intro h
    exact ⟨fun n => filteredData_nodes_mem h, fun l => filteredData_links_mem h⟩

theorem c5_filter_characterization_witness :
    trimIsEmpty "a" = false ∧
      (ENode.mk "B" "B" 1 1 70 ∈
          (filteredData ⟨[⟨"A", "A", 1, 1, 70⟩, ⟨"B", "B", 1, 1, 70⟩], [("A", "B")]⟩ "a").nodes ↔
        ENode.mk "B" "B" 1 1 70 ∈
            (⟨[⟨"A", "A", 1, 1, 70⟩, ⟨"B", "B", 1, 1, 70⟩], [("A", "B")]⟩ : Graph).nodes ∧
          ExpandedId ⟨[⟨"A", "A", 1, 1, 70⟩, ⟨"B", "B", 1, 1, 70⟩], [("A", "B")]⟩ "a" "B") :=
  ⟨by decide,
    ((c5_filter_characterization
        ⟨[⟨"A", "A", 1, 1, 70⟩, ⟨"B", "B", 1, 1, 70⟩], [("A", "B")]⟩ "a").2 (by decide)).1
      (ENode.mk "B" "B" 1 1 70)⟩

theorem seedId_filteredData {g : Graph} {q : String} (h : trimIsEmpty q = false)
    {x : String} (hx : SeedId g q x) : SeedId (filteredData g q) q x := by
  obtain ⟨n, hn, rfl, hc⟩ := hx
  refine ⟨n, ?_, rfl, hc⟩
  rw [filteredData_nodes_mem h]
  exact ⟨hn, Or.inl ⟨n, hn, rfl, hc⟩⟩

theorem expandedId_filteredData {g : Graph} {q : String} (h : trimIsEmpty q = false)
    {x : String} (hx : ExpandedId g q x) : ExpandedId (filteredData g q) q x := by
  rcases hx with hs | ⟨l, hl, hcase⟩
  · exact Or.inl (seedId_filteredData h hs)
  · rcases hcase with ⟨hs1, hx2⟩ | ⟨hs2, hx1⟩
    · have hl' : l ∈ (filteredData g q).links := by
        rw [filteredData_links_mem h]
        exact ⟨hl, Or.inl hs1, Or.inr ⟨l, hl, Or.inl ⟨hs1, rfl⟩⟩⟩
      exact Or.inr ⟨l, hl', Or.inl ⟨seedId_filteredData h hs1, hx2⟩⟩
    · have hl' : l ∈ (filteredData g q).links := by
        rw [filteredData_links_mem h]
        exact ⟨hl, Or.inr ⟨l, hl, Or.inr ⟨hs2, rfl⟩⟩, Or.inl hs2⟩
      exact Or.inr ⟨l, hl', Or.inr ⟨seedId_filteredData h hs2, hx1⟩⟩

/-- C6: the search filter is idempotent - filtering the sub-graph already
produced by filtering with the same query returns the same node list and
edge list. -/
theorem c6_filter_idempotent (g : Graph) (q : String) :
    filteredData (filteredData g q) q = filteredData g q := by
  cases h : trimIsEmpty q with
  | true => simp [filteredData, h]
  | false =>
    have hnodes : ∀ n ∈ (filteredData g q).nodes,
        inExpandedB (filteredData g q) q n.id = true := by
      intro n hn
      rw [inExpandedB_iff]
      exact expandedId_filteredData h ((filteredData_nodes_mem h).mp hn).2
    have hlinks : ∀ l ∈ (filteredData g q).links,
        (inExpandedB (filteredData g q) q l.1 && inExpandedB (filteredData g q) q l.2) = true := by
      intro l hl
      obtain ⟨-, h1, h2⟩ := (filteredData_links_mem h).mp hl
      rw [Bool.and_eq_true, inExpandedB_iff, inExpandedB_iff]
      exact ⟨expandedId_filteredData h h1, expandedId_filteredData h h2⟩
    calc filteredData (filteredData g q) q
        = ⟨(filteredData g q).nodes.filter (fun n => inExpandedB (filteredData g q) q n.id),
            (filteredData g q).links.filter (fun l =>
              inExpandedB (filteredData g q) q l.1 && inExpandedB (filteredData g q) q l.2)⟩ := by
          simp only [filteredData, h, Bool.false_eq_true, if_false]
      _ = ⟨(filteredData g q).nodes, (filteredData g q).links⟩ := by
          rw [List.filter_eq_self.mpr hnodes, List.filter_eq_self.mpr hlinks]
      _ = filteredData g q := rfl

/-- C7: building from the two-record input where A declares B outgoing
and B declares A incoming yields exactly the nodes A and B, the single
merged edge A→B, connection count 1 for both, importance 1 for both and
size 70 = 25 + 1 × 45 for both. -/
theorem c7_two_node_scenario :
    enrichedData [⟨"A", [], ["B"]⟩, ⟨"B", ["A"], []⟩] =
      ⟨[⟨"A", "A", 1, 1, 70⟩, ⟨"B", "B", 1, 1, 70⟩], [("A", "B")]⟩ := by
  simp +decide [enrichedData, enrichNode, buildNodeIds, buildLinks, dedupFirstAux, dedupByKey,
    declaredPairs, rawNames, linkKey, connCount, maxConn, endpointIds]
  norm_num

theorem charSum_append (a b : String) : charSum (a ++ b) = charSum a + charSum b := by
  simp [charSum, String.data_append]

theorem particleOffset_symm (s t : String) : particleOffset s t = particleOffset t s := by
  have h : charSum (s ++ "-" ++ t) = charSum (t ++ "-" ++ s) := by
    rw [charSum_append, charSum_append, charSum_append, charSum_append]
    omega
  rw [particleOffset, particleOffset, h]

/-- C8 (amended): each particle's curve parameter is a deterministic
function of the global animation tick plus a per-edge phase offset that is
a pure hash of the endpoint ids; the offset lies in [0, 1), is stable
across frames (the tick contributes a 50-tick period, not the offset),
but distinct edges need not have distinct offsets: the hash is the
character-code sum of `source-target`, so in particular an edge and its
reverse share the same offset. -/
theorem c8_particle_phase (s t : String) (tick p : ℕ) :
    0 ≤ particleOffset s t ∧ particleOffset s t < 1 ∧
      particleT s t (tick + 50) p = particleT s t tick p ∧
      particleOffset s t = particleOffset t s := by
  refine ⟨?_, ?_, ?_, particleOffset_symm s t⟩
  · rw [particleOffset]
    positivity
  · rw [particleOffset]
    rw [div_lt_one (by norm_num)]
    exact_mod_cast Nat.mod_lt _ (by norm_num)
  · rw [particleT, particleT]
    have h : ((tick + 50 : ℕ) : ℚ) * (1 / 50) + particleOffset s t + (p : ℚ) * (1 / 2) =
        (tick : ℚ) * (1 / 50) + particleOffset s t + (p : ℚ) * (1 / 2) + 1 := by
      push_cast
      ring
    rw [h, Int.fract_add_one]

/-- C8 counterexample: the distinct edges (A, B) and (B, A) have equal
phase offsets, so distinct edges do not always get distinct offsets. -/
theorem c8_counterexample :
    (("A", "B") : String × String) ≠ ("B", "A") ∧
      particleOffset "A" "B" = particleOffset "B" "A" :=
  ⟨by decide, particleOffset_symm "A" "B"⟩

/-- C10: on every frame any node with a non-finite coordinate is skipped
(nothing is drawn for it) and any edge with a missing endpoint or a
non-finite endpoint coordinate is skipped; a frame is a pure function of
the model, and the same node is drawn again as soon as its coordinates
are finite. -/
theorem c10_render_guards (nodes : List VNode) (links : List (String × String)) :
    (∀ n : VNode, (n.x = none ∨ n.y = none) → renderNode n = none) ∧
      (∀ l : String × String, findNode nodes l.1 = none ∨ findNode nodes l.2 = none →
        renderLink nodes l = none) ∧
      (∀ (l : String × String) (s t : VNode), findNode nodes l.1 = some s →
        findNode nodes l.2 = some t →
        (s.x = none ∨ s.y = none ∨ t.x = none ∨ t.y = none) →
        renderLink nodes l = none) ∧
      (∀ (n : VNode) (x y : ℚ), n.x = some x → n.y = some y →
        renderNode n = some (n.id, x, y, n.val)) ∧
      renderFrame nodes links =
        (nodes.filterMap renderNode, links.filterMap (renderLink nodes)) := by
  refine ⟨?_, ?_, ?_, ?_, rfl⟩
  · intro n hn
    rcases hn with hn | hn
    · rw [renderNode, hn]
    · rw [renderNode, hn]
      rcases hx : n.x with _ | a
      · rfl
      · rfl
  · intro l hl
    rcases hl with hl | hl
    · rw [renderLink, hl]
    · rw [renderLink, hl]
      rcases findNode nodes l.1 with _ | s
      · rfl
      · rfl
  · intro l s t hs ht hc
    rcases h1 : s.x with _ | sx <;> rcases h2 : s.y with _ | sy <;>
      rcases h3 : t.x with _ | tx <;> rcases h4 : t.y with _ | ty <;>
      simp_all [renderLink, hs, ht]
  · intro n x y hx hy
    rw [renderNode, hx, hy]

theorem c10_render_guards_witness :
    renderNode ⟨"A", "A", 70, none, some 0⟩ = none ∧
      renderLink [⟨"A", "A", 70, none, some 0⟩, ⟨"B", "B", 70, some 1, some 2⟩] ("A", "B") =
        none ∧
      renderLink [⟨"A", "A", 70, none, some 0⟩, ⟨"B", "B", 70, some 1, some 2⟩] ("A", "C") =
        none ∧
      renderNode ⟨"B", "B", 70, some 1, some 2⟩ = some ("B", 1, 2, 70) :=
  ⟨(c10_render_guards [] []).1 ⟨"A", "A", 70, none, some 0⟩ (Or.inl rfl),
    (c10_render_guards [⟨"A", "A", 70, none, some 0⟩, ⟨"B", "B", 70, some 1, some 2⟩]
        []).2.2.1 ("A", "B") ⟨"A", "A", 70, none, some 0⟩ ⟨"B", "B", 70, some 1, some 2⟩
      rfl rfl (Or.inl rfl),
    (c10_render_guards [⟨"A", "A", 70, none, some 0⟩, ⟨"B", "B", 70, some 1, some 2⟩]
        []).2.1 ("A", "C") (Or.inr rfl),
    (c10_render_guards [] []).2.2.2.1 ⟨"B", "B", 70, some 1, some 2⟩ 1 2 rfl rfl⟩

/-- C1: in the interleaving where node X is clicked, then node Y is
clicked while X's definition fetch is still in flight, and X's fetch then
resolves, the component shows X's definition in the panel although Y is
the selected node - the response handler stores the result without
validating it against the concept it was requested for, so the claimed
guard does not exist in the code. -/
theorem c1_stale_result_displayed :
    (panelRun [FetchEvent.click "X", FetchEvent.click "Y",
        FetchEvent.resolve "X" "X definition"]).selected = some "Y" ∧
      (panelRun [FetchEvent.click "X", FetchEvent.click "Y",
          FetchEvent.resolve "X" "X definition"]).shownDef = "X definition" ∧
      (panelRun [FetchEvent.click "X", FetchEvent.click "Y",
          FetchEvent.resolve "X" "X definition"]).loadingDef = false := by
  decide
